import Mathlib

/-!
Verification of the envfile codec (Marshal / Unmarshal / parseFieldOpts from
env.go) against its natural-language specification.  The Go code is shallowly
embedded: byte sequences and Go strings become lists of characters, reflected
records become explicit lists of fields carrying a name, a raw tag string and a
value, and the reflect-level dynamic checks become pattern matches on the
embedded kinds.  Both operations return their result together with an optional
error, mirroring the Go multiple-return convention.
-/

set_option maxHeartbeats 1000000

namespace Envfile

/-- A Go string / byte slice, embedded as a list of characters. -/
abbrev Str := List Char

/-- Characters reported as white space by Go `unicode.IsSpace`
(used by `strings.TrimSpace`). -/
def goIsSpace (c : Char) : Bool :=
  c = ' ' || c = '\t' || c = '\n' || c = '\r' ||
  c.toNat = 11 || c.toNat = 12 || c.toNat = 0x85 || c.toNat = 0xA0 ||
  c.toNat = 0x1680 || (0x2000 ≤ c.toNat && c.toNat ≤ 0x200A) ||
  c.toNat = 0x2028 || c.toNat = 0x2029 || c.toNat = 0x202F ||
  c.toNat = 0x205F || c.toNat = 0x3000

/-- Go `strings.TrimSpace`: drop white space from both ends
(right end first, then left end; the order is immaterial). -/
def trimSpace (l : Str) : Str :=
  ((l.reverse.dropWhile goIsSpace).reverse).dropWhile goIsSpace

/-- Go `bufio.ScanLines` helper `dropCR`: strip one trailing carriage return. -/
def dropCR (l : Str) : Str :=
  match l.reverse with
  | [] => l
  | c :: rest => if c = '\r' then rest.reverse else l

/-- Accumulating worker for `goLines`: `acc` holds the characters of the
current (unfinished) line in reverse order. -/
def goLinesAux : Str → Str → List Str
  | [], acc => if acc = [] then [] else [dropCR acc.reverse]
  | c :: rest, acc =>
    if c = '\n' then dropCR acc.reverse :: goLinesAux rest []
    else goLinesAux rest (c :: acc)

/-- The sequence of lines produced by a `bufio.Scanner` with the default
`ScanLines` split function: split at newlines, strip one trailing carriage
return per line, and emit a final unterminated line only if it is non-empty. -/
def goLines (data : Str) : List Str := goLinesAux data []

/-- Go `strings.SplitN(line, "=", 2)`, reshaped: `none` when the line has no
`=`, otherwise the segments before and after the first `=`. -/
def splitFirstEq : Str → Option (Str × Str)
  | [] => none
  | c :: rest =>
    if c = '=' then some ([], rest)
    else
      match splitFirstEq rest with
      | none => none
      | some p => some (c :: p.1, p.2)

/-- Go `strings.Split(tag, ",")`: always returns at least one token. -/
def splitComma : Str → List Str
  | [] => [[]]
  | c :: rest =>
    if c = ',' then [] :: splitComma rest
    else
      match splitComma rest with
      | [] => [c] :: []
      | h :: t => (c :: h) :: t

/-- Go `strings.ToUpper` restricted to the ASCII uppercasing Lean provides. -/
def strToUpper (l : Str) : Str := l.map Char.toUpper

/-- The subset of `reflect.Kind` values this development needs. -/
inductive Kind where
  | invalid
  | boolK
  | intK
  | floatK
  | stringK
  | structK
  | ptrK
  | sliceK
  | mapK
  deriving DecidableEq

/-- The two error values of the package: `ErrorUnsupportedType` carrying a
`reflect.Kind`, and `ErrorLineParsing` carrying a 1-based line number. -/
inductive EnvError where
  | unsupportedType (k : Kind)
  | lineParsing (n : Nat)
  deriving DecidableEq

/-- The dynamic value of one struct field: either a string, or a value of
some other (unsupported) kind. -/
inductive FieldVal where
  | str (s : Str)
  | other (k : Kind)
  deriving DecidableEq

/-- One field of a reflected struct: declared name, raw `env` tag (empty when
the tag is absent), and current value. -/
structure Field where
  name : Str
  tag : Str
  val : FieldVal
  deriving DecidableEq

/-- The `interface{}` argument of `Marshal`: a nil interface, a struct with
its fields, or a non-struct value of some kind. -/
inductive Value where
  | nilV
  | structV (fields : List Field)
  | otherV (k : Kind)
  deriving DecidableEq

/-- The `interface{}` argument of `Unmarshal`: a nil interface, a non-pointer
value of some kind, a nil pointer, or a non-nil pointer to a struct. -/
inductive Target where
  | nilT
  | nonPtr (k : Kind)
  | nilPtr
  | ptr (fields : List Field)
  deriving DecidableEq

/-- `reflect.ValueOf(v).Kind()` for each embedded target shape. -/
def targetKind : Target → Kind
  | Target.nilT => Kind.invalid
  | Target.nonPtr k => k
  | Target.nilPtr => Kind.ptrK
  | Target.ptr _ => Kind.ptrK

/-- The option flags recognised in an `env` struct tag (env.go `envOptions`). -/
structure envOptions where
  Skip : Bool := false
  OmitEmpty : Bool := false
  deriving DecidableEq

/-- The characters of the option token `omitempty`. -/
def omitemptyTok : Str := ['o', 'm', 'i', 't', 'e', 'm', 'p', 't', 'y']

/-- The flag-scanning loop of `parseFieldOpts` over the tokens after the
first: only `omitempty` is recognised, every other token is ignored. -/
def scanOptions : List Str → envOptions → envOptions
  | [], opts => opts
  | v :: rest, opts =>
    scanOptions rest
      (if v = omitemptyTok then { opts with OmitEmpty := true } else opts)

/-- env.go `parseFieldOpts`: split the raw tag on commas, scan the tokens
after the first for flags, and derive the key name from the first token
(`-` marks the field skipped, an empty token selects the upper-cased field
name, any other token is used verbatim). -/
def parseFieldOpts (fieldName : Str) (tag : Str) : Str × envOptions :=
  let options := splitComma tag
  let opts := scanOptions (options.drop 1) {}
  let first := options.headD []
  if first = [ '-' ] then ([], { opts with Skip := true })
  else if first = [] then (strToUpper fieldName, opts)
  else (first, opts)

/-- The field loop of `Marshal`: emit `KEY=value\n` per eligible field into
the buffer; on an unsupported field kind return an empty byte slice together
with the error, exactly as the Go code does. -/
def marshalFields : List Field → Str → Str × Option EnvError
  | [], buf => (buf, none)
  | f :: rest, buf =>
    let keyname := (parseFieldOpts f.name f.tag).1
    let opts := (parseFieldOpts f.name f.tag).2
    if opts.Skip = true then marshalFields rest buf
    else
      match f.val with
      | FieldVal.str s =>
        if opts.OmitEmpty = true ∧ s = [] then marshalFields rest buf
        else marshalFields rest (buf ++ keyname ++ '=' :: s ++ [ '\n' ])
      | FieldVal.other k => ([], some (EnvError.unsupportedType k))

/-- env.go `Marshal`: nil encodes to an empty byte slice, a non-struct value
is rejected with its kind, and a struct is encoded field by field. -/
def Marshal : Value → Str × Option EnvError
  | Value.nilV => ([], none)
  | Value.otherV k => ([], some (EnvError.unsupportedType k))
  | Value.structV fields => marshalFields fields []

/-- The per-line field loop of `Unmarshal`: walk the target fields, skip the
ones tagged `-`, and assign the trimmed value to every string field whose
resolved key equals the trimmed raw key; a matching non-string field aborts
with its kind, leaving the remaining fields untouched. -/
def applyLine : List Field → Str → Str → List Field × Option EnvError
  | [], _, _ => ([], none)
  | f :: rest, key, rawval =>
    let keyname := (parseFieldOpts f.name f.tag).1
    let opts := (parseFieldOpts f.name f.tag).2
    if opts.Skip = true then
      let r := applyLine rest key rawval
      (f :: r.1, r.2)
    else if trimSpace key = keyname then
      match f.val with
      | FieldVal.str _ =>
        let f2 :=
          if opts.OmitEmpty = true ∧ rawval = [] then f
          else { f with val := FieldVal.str (trimSpace rawval) }
        let r := applyLine rest key rawval
        (f2 :: r.1, r.2)
      | FieldVal.other k => (f :: rest, some (EnvError.unsupportedType k))
    else
      let r := applyLine rest key rawval
      (f :: r.1, r.2)

/-- The line loop of `Unmarshal`: trim each line, skip blank lines and `#`
comments, fail with `ErrorLineParsing` on a line without `=`, validate the
target only when a key/value line is reached, and otherwise apply the line to
the target fields.  `count` is the number of lines already consumed. -/
def unmarshalLoop : List Str → Nat → Target → Target × Option EnvError
  | [], _, t => (t, none)
  | l :: rest, count, t =>
    let line := trimSpace l
    if line = [] ∨ line.head? = some '#' then
      unmarshalLoop rest (count + 1) t
    else
      match splitFirstEq line with
      | none => (t, some (EnvError.lineParsing (count + 1)))
      | some kv =>
        match t with
        | Target.ptr fields =>
          let r := applyLine fields kv.1 kv.2
          match r.2 with
          | some e => (Target.ptr r.1, some e)
          | none => unmarshalLoop rest (count + 1) (Target.ptr r.1)
        | t2 => (t2, some (EnvError.unsupportedType (targetKind t2)))

/-- env.go `Unmarshal`: scan `data` into lines and run the line loop.  The
returned target is the in-place mutated record; reading from an in-memory
byte reader never fails, so the trailing `scanner.Err()` check of the Go code
is always nil and is not modelled. -/
def Unmarshal (data : Str) (t : Target) : Target × Option EnvError :=
  unmarshalLoop (goLines data) 0 t

/-! Derived notions used to state the claims. -/

/-- The first character exists and is not white space. -/
def headNotSpace : Str → Bool
  | [] => false
  | c :: _ => ! goIsSpace c

/-- A token with no leading or trailing white space (hence non-empty). -/
def goodTok (l : Str) : Bool := headNotSpace l && headNotSpace l.reverse

/-- No newline character occurs in the token. -/
def noNL (l : Str) : Bool := ! decide (('\n') ∈ l)

/-- A key that survives the wire format unchanged: trim-invariant, free of
newlines and `=`, and not opening a comment. -/
def goodKey (k : Str) : Bool :=
  goodTok k && noNL k && (! decide (('=') ∈ k)) && (! decide (k.head? = some '#'))

/-- A plain string value that survives the wire format unchanged. -/
def plainVal : FieldVal → Bool
  | FieldVal.str v => goodTok v && noNL v
  | FieldVal.other _ => false

/-- The key a field resolves to. -/
def fieldKey (f : Field) : Str := (parseFieldOpts f.name f.tag).1

/-- A plain field in the sense of the round-trip property: a non-skipped,
non-`omitempty` string field whose resolved key and value are wire-safe. -/
def plainField (f : Field) : Bool :=
  (! (parseFieldOpts f.name f.tag).2.Skip) &&
  (! (parseFieldOpts f.name f.tag).2.OmitEmpty) &&
  goodKey (parseFieldOpts f.name f.tag).1 &&
  plainVal f.val

/-- The zero value of a field: same declaration, empty string value. -/
def freshField (f : Field) : Field := { f with val := FieldVal.str [] }

/-- The string stored in a field value (empty for non-string fields). -/
def fieldValStr : FieldVal → Str
  | FieldVal.str s => s
  | FieldVal.other _ => []

/-- The key/value line a plain field encodes to, without the newline. -/
def rawLine (f : Field) : Str := fieldKey f ++ '=' :: fieldValStr f.val

/-- Concatenate lines, terminating each with a newline. -/
def joinLines : List Str → Str
  | [] => []
  | l :: rest => l ++ '\n' :: joinLines rest

/-- A line the decoder ignores: blank, or a `#` comment, after trimming. -/
def isInsig (l : Str) : Bool :=
  decide (trimSpace l = [] ∨ (trimSpace l).head? = some '#')

/-- A line the decoder consumes without a parse error: ignored, or
containing an `=`. -/
def okLine (l : Str) : Bool := isInsig l || (splitFirstEq (trimSpace l)).isSome

/-- A line that triggers `ErrorLineParsing`: significant but without `=`. -/
def badNoEq (l : Str) : Bool := (! isInsig l) && (! (splitFirstEq (trimSpace l)).isSome)

/-- Whether the first significant line of the input, if any, contains `=`. -/
def firstSigHasEq : List Str → Bool
  | [] => false
  | l :: rest =>
    if trimSpace l = [] ∨ (trimSpace l).head? = some '#' then firstSigHasEq rest
    else (splitFirstEq (trimSpace l)).isSome

/-- A target `Unmarshal` rejects: nil, a non-pointer, or a nil pointer. -/
def targetInvalid : Target → Bool
  | Target.ptr _ => false
  | _ => true

/-- A field the decoder can never fail on: skipped, or of string kind. -/
def fieldDecodable (f : Field) : Bool :=
  (parseFieldOpts f.name f.tag).2.Skip ||
    (match f.val with
     | FieldVal.str _ => true
     | FieldVal.other _ => false)

/-- Re-insert a field at position `n` of a pointed-to record. -/
def insertFieldAt (n : Nat) (f : Field) : Target → Target
  | Target.ptr l => Target.ptr (l.take n ++ f :: l.drop n)
  | t => t

/-! Helper lemmas. -/

theorem scanOptions_Skip (l : List Str) : ∀ o : envOptions, (scanOptions l o).Skip = o.Skip := by
  induction l with
  | nil => intro o; rfl
  | cons v rest ih =>
    intro o
    simp only [scanOptions, ih]
    split <;> rfl

theorem scanOptions_OmitEmpty (l : List Str) :
    ∀ o : envOptions,
      ((scanOptions l o).OmitEmpty = true ↔ (o.OmitEmpty = true ∨ omitemptyTok ∈ l)) := by
  induction l with
  | nil => intro o; simp [scanOptions]
  | cons v rest ih =>
    intro o
    simp only [scanOptions, ih]
    by_cases hv : v = omitemptyTok
    · subst hv; simp [List.mem_cons]
    · have hv2 : omitemptyTok ≠ v := fun h => hv h.symm
      rw [if_neg hv]
      simp [List.mem_cons, hv2]

theorem marshalFields_error_empty (fs : List Field) :
    ∀ (buf : Str) (e : EnvError),
      (marshalFields fs buf).2 = some e → (marshalFields fs buf).1 = [] := by
  induction fs with
  | nil => intro buf e h; simp [marshalFields] at h
  | cons f rest ih =>
    intro buf e h
    by_cases hs : (parseFieldOpts f.name f.tag).2.Skip = true
    · simp only [marshalFields, if_pos hs] at h ⊢
      exact ih _ _ h
    · cases hval : f.val with
      | str s =>
        by_cases ho : (parseFieldOpts f.name f.tag).2.OmitEmpty = true ∧ s = []
        · simp only [marshalFields, if_neg hs, hval, if_pos ho] at h ⊢
          exact ih _ _ h
        · simp only [marshalFields, if_neg hs, hval, if_neg ho] at h ⊢
          exact ih _ _ h
      | other k =>
        simp only [marshalFields, if_neg hs, hval]

/-! Claim theorems. -/

/-- C7: encoding the absence of a value (nil input) returns a zero-length
byte sequence and no error. -/
theorem c7_nil_marshals_empty : Marshal Value.nilV = ([], none) := rfl

/-- C10: whenever Marshal returns an error, the byte sequence it returns is
zero-length, never the partially filled buffer accumulated for fields
processed before the failing one. -/
theorem c10_marshal_error_empty (v : Value) (e : EnvError)
    (h : (Marshal v).2 = some e) : (Marshal v).1 = [] := by
  cases v with
  | nilV => simp [Marshal] at h
  | otherV k => rfl
  | structV fields => exact marshalFields_error_empty fields [] e h

/-- Witness for C10: a struct whose second field is an unsupported int is
rejected with that kind and yields an empty byte sequence, although the
first field had already produced a line in the internal buffer. -/
theorem c10_marshal_error_empty_witness :
    (Marshal (Value.structV
      [⟨("Bla").toList, [], FieldVal.str (("x").toList)⟩,
       ⟨("Test").toList, [], FieldVal.other Kind.intK⟩])).2 =
        some (EnvError.unsupportedType Kind.intK) ∧
    (Marshal (Value.structV
      [⟨("Bla").toList, [], FieldVal.str (("x").toList)⟩,
       ⟨("Test").toList, [], FieldVal.other Kind.intK⟩])).1 = [] :=
  ⟨by decide,
   c10_marshal_error_empty
     (Value.structV
       [⟨("Bla").toList, [], FieldVal.str (("x").toList)⟩,
        ⟨("Test").toList, [], FieldVal.other Kind.intK⟩])
     (EnvError.unsupportedType Kind.intK) (by decide)⟩

/-- C3: the field resolver sets Skip exactly when the first comma-separated
token of the raw configuration is `-`; it returns the upper-cased field name
when the first token is empty, and the first token verbatim otherwise; it
sets OmitEmpty exactly when some later token equals `omitempty`, ignoring
all other tokens.  Its Lean type, like the Go signature, has no error
outcome, so it can never produce an error. -/
theorem c3_parseFieldOpts_spec (name tag : Str) :
    ((parseFieldOpts name tag).2.Skip = true ↔ (splitComma tag).headD [] = [ '-' ]) ∧
    ((splitComma tag).headD [] = [] → (parseFieldOpts name tag).1 = strToUpper name) ∧
    ((splitComma tag).headD [] ≠ [ '-' ] → (splitComma tag).headD [] ≠ [] →
      (parseFieldOpts name tag).1 = (splitComma tag).headD []) ∧
    ((parseFieldOpts name tag).2.OmitEmpty = true ↔
      omitemptyTok ∈ (splitComma tag).drop 1) := by
  have homitbase := scanOptions_OmitEmpty ((splitComma tag).drop 1) {}
  have homitbase2 : (scanOptions ((splitComma tag).drop 1) {}).OmitEmpty = true ↔
      omitemptyTok ∈ (splitComma tag).drop 1 := by
    rw [homitbase]
    exact or_iff_right (by exact fun h => Bool.false_ne_true h)
  refine ⟨?_, ?_, ?_, ?_⟩
  · by_cases h1 : (splitComma tag).headD [] = [ '-' ]
    · constructor
      · intro _; exact h1
      · intro _
        show (if (splitComma tag).headD [] = [ '-' ] then _ else _ : Str × envOptions).2.Skip = true
        rw [if_pos h1]
    · constructor
      · intro hsk
        by_cases h2 : (splitComma tag).headD [] = []
        · exfalso
          have hsk2 : (scanOptions ((splitComma tag).drop 1) {}).Skip = true := by
            have : (if (splitComma tag).headD [] = [ '-' ] then
                ([], { scanOptions ((splitComma tag).drop 1) {} with Skip := true })
              else if (splitComma tag).headD [] = [] then
                (strToUpper name, scanOptions ((splitComma tag).drop 1) {})
              else ((splitComma tag).headD [], scanOptions ((splitComma tag).drop 1) {})).2.Skip
              = true := hsk
            rwa [if_neg h1, if_pos h2] at this
          rw [scanOptions_Skip] at hsk2
          exact Bool.false_ne_true hsk2
        · exfalso
          have hsk2 : (scanOptions ((splitComma tag).drop 1) {}).Skip = true := by
            have : (if (splitComma tag).headD [] = [ '-' ] then
                ([], { scanOptions ((splitComma tag).drop 1) {} with Skip := true })
              else if (splitComma tag).headD [] = [] then
                (strToUpper name, scanOptions ((splitComma tag).drop 1) {})
              else ((splitComma tag).headD [], scanOptions ((splitComma tag).drop 1) {})).2.Skip
              = true := hsk
            rwa [if_neg h1, if_neg h2] at this
          rw [scanOptions_Skip] at hsk2
          exact Bool.false_ne_true hsk2
      · intro hcontra; exact absurd hcontra h1
  · intro h2
    have h1 : ¬ (splitComma tag).headD [] = [ '-' ] := by
      rw [h2]; intro hc; cases hc
    show (if (splitComma tag).headD [] = [ '-' ] then _
      else if (splitComma tag).headD [] = [] then (strToUpper name, _)
      else ((splitComma tag).headD [], _) : Str × envOptions).1 = strToUpper name
    rw [if_neg h1, if_pos h2]
  · intro h1 h2
    show (if (splitComma tag).headD [] = [ '-' ] then _
      else if (splitComma tag).headD [] = [] then (strToUpper name, _)
      else ((splitComma tag).headD [], _) : Str × envOptions).1 = (splitComma tag).headD []
    rw [if_neg h1, if_neg h2]
  · by_cases h1 : (splitComma tag).headD [] = [ '-' ]
    · have hrw : (parseFieldOpts name tag).2.OmitEmpty
          = (scanOptions ((splitComma tag).drop 1) {}).OmitEmpty := by
        show (if (splitComma tag).headD [] = [ '-' ] then
            ([], { scanOptions ((splitComma tag).drop 1) {} with Skip := true })
          else if (splitComma tag).headD [] = [] then
            (strToUpper name, scanOptions ((splitComma tag).drop 1) {})
          else ((splitComma tag).headD [], scanOptions ((splitComma tag).drop 1) {})).2.OmitEmpty
          = (scanOptions ((splitComma tag).drop 1) {}).OmitEmpty
        rw [if_pos h1]
      rw [hrw]; exact homitbase2
    · by_cases h2 : (splitComma tag).headD [] = []
      · have hrw : (parseFieldOpts name tag).2.OmitEmpty
            = (scanOptions ((splitComma tag).drop 1) {}).OmitEmpty := by
          show (if (splitComma tag).headD [] = [ '-' ] then
              ([], { scanOptions ((splitComma tag).drop 1) {} with Skip := true })
            else if (splitComma tag).headD [] = [] then
              (strToUpper name, scanOptions ((splitComma tag).drop 1) {})
            else ((splitComma tag).headD [], scanOptions ((splitComma tag).drop 1) {})).2.OmitEmpty
            = (scanOptions ((splitComma tag).drop 1) {}).OmitEmpty
          rw [if_neg h1, if_pos h2]
        rw [hrw]; exact homitbase2
      · have hrw : (parseFieldOpts name tag).2.OmitEmpty
            = (scanOptions ((splitComma tag).drop 1) {}).OmitEmpty := by
          show (if (splitComma tag).headD [] = [ '-' ] then
              ([], { scanOptions ((splitComma tag).drop 1) {} with Skip := true })
            else if (splitComma tag).headD [] = [] then
              (strToUpper name, scanOptions ((splitComma tag).drop 1) {})
            else ((splitComma tag).headD [], scanOptions ((splitComma tag).drop 1) {})).2.OmitEmpty
            = (scanOptions ((splitComma tag).drop 1) {}).OmitEmpty
          rw [if_neg h1, if_neg h2]
        rw [hrw]; exact homitbase2

/-- Witness for C3: concrete resolutions of a rename with flags, a skip
marker, and an absent configuration. -/
theorem c3_parseFieldOpts_spec_witness :
    (parseFieldOpts (("Test").toList) (("x,omitempty,bogus").toList)).1 = ("x").toList ∧
    (parseFieldOpts (("Test").toList) (("x,omitempty,bogus").toList)).2.OmitEmpty = true ∧
    (parseFieldOpts (("Test").toList) (("-").toList)).2.Skip = true ∧
    (parseFieldOpts (("Test").toList) []).1 = ("TEST").toList := by
  refine ⟨?_, ?_, ?_, ?_⟩
  · exact (c3_parseFieldOpts_spec (("Test").toList) (("x,omitempty,bogus").toList)).2.2.1
      (by decide) (by decide)
  · exact (c3_parseFieldOpts_spec (("Test").toList) (("x,omitempty,bogus").toList)).2.2.2.mpr
      (by decide)
  · exact (c3_parseFieldOpts_spec (("Test").toList) (("-").toList)).1.mpr (by decide)
  · exact (c3_parseFieldOpts_spec (("Test").toList) []).2.1 (by decide)

theorem splitFirstEq_append (a : Str) :
    ∀ b : Str, ('=') ∉ a → splitFirstEq (a ++ '=' :: b) = some (a, b) := by
  induction a with
  | nil => intro b _; simp [splitFirstEq]
  | cons c a2 ih =>
    intro b h
    have hc : ¬ c = '=' := by
      intro hc; exact h (by rw [hc]; exact List.mem_cons_self _ _)
    have h2 : ('=') ∉ a2 := fun hm => h (List.mem_cons_of_mem _ hm)
    simp only [List.cons_append, splitFirstEq, if_neg hc, List.append_eq, ih b h2]

/-- C5: a key/value line is split at the first `=` only, the value being
everything after it with additional `=` characters preserved; decoding the
line `TEST=abc123=123=a` into a record with one string field resolving to
key `TEST` assigns the value `abc123=123=a` to that field. -/
theorem c5_first_eq_wins :
    (∀ a b : Str, ('=') ∉ a → splitFirstEq (a ++ '=' :: b) = some (a, b)) ∧
    (∀ (name tag v0 : Str),
      (parseFieldOpts name tag).1 = ("TEST").toList →
      (parseFieldOpts name tag).2.Skip = false →
      Unmarshal (("TEST=abc123=123=a").toList)
          (Target.ptr [⟨name, tag, FieldVal.str v0⟩]) =
        (Target.ptr [⟨name, tag, FieldVal.str (("abc123=123=a").toList)⟩], none)) := by
  constructor
  · exact fun a b h => splitFirstEq_append a b h
  · intro name tag v0 hkey hskip
    have hlines : goLines (("TEST=abc123=123=a").toList)
        = [("TEST=abc123=123=a").toList] := by decide
    have htrim : trimSpace (("TEST=abc123=123=a").toList)
        = ("TEST=abc123=123=a").toList := by decide
    have hsplit : splitFirstEq (("TEST=abc123=123=a").toList)
        = some (("TEST").toList, ("abc123=123=a").toList) := by decide
    have hne : ¬((("TEST=abc123=123=a").toList : Str) = []
        ∨ ((("TEST=abc123=123=a").toList : Str)).head? = some '#') := by decide
    have htrimk : trimSpace (("TEST").toList) = ("TEST").toList := by decide
    have htrimv : trimSpace (("abc123=123=a").toList)
        = ("abc123=123=a").toList := by decide
    have hvne : ¬((("abc123=123=a").toList : Str) = []) := by decide
    unfold Unmarshal
    rw [hlines]
    simp only [unmarshalLoop, htrim, hsplit, applyLine, hkey, hskip, htrimk,
      htrimv, hne, hvne, if_false, eq_self_iff_true, if_true, and_false,
      Bool.false_eq_true, false_and, if_neg, not_false_iff]

/-- Witness for C5: the concrete decode of `TEST=abc123=123=a` into a
one-field record with the default key name, plus a concrete first-`=` split. -/
theorem c5_first_eq_wins_witness :
    Unmarshal (("TEST=abc123=123=a").toList)
        (Target.ptr [⟨("Test").toList, [], FieldVal.str []⟩]) =
      (Target.ptr [⟨("Test").toList, [], FieldVal.str (("abc123=123=a").toList)⟩], none) ∧
    splitFirstEq (("a=b=c").toList) = some (("a").toList, ("b=c").toList) :=
  ⟨c5_first_eq_wins.2 (("Test").toList) [] [] (by decide) (by decide),
   c5_first_eq_wins.1 (("a").toList) (("b=c").toList) (by decide)⟩

theorem badNoEq_spec (l : Str) (h : badNoEq l = true) :
    ¬(trimSpace l = [] ∨ (trimSpace l).head? = some '#') ∧
      splitFirstEq (trimSpace l) = none := by
  simp only [badNoEq, Bool.and_eq_true] at h
  obtain ⟨h1, h2⟩ := h
  constructor
  · exact of_decide_eq_false (by simpa [isInsig] using h1)
  · have h3 : (splitFirstEq (trimSpace l)).isSome = false := by simpa using h2
    cases hc : splitFirstEq (trimSpace l) with
    | none => rfl
    | some p => rw [hc] at h3; cases h3

theorem unmarshalLoop_invalid (ls : List Str) :
    ∀ (c : Nat) (t : Target), targetInvalid t = true → firstSigHasEq ls = true →
      unmarshalLoop ls c t = (t, some (EnvError.unsupportedType (targetKind t))) := by
  induction ls with
  | nil => intro c t _ h2; cases h2
  | cons l rest ih =>
    intro c t h1 h2
    by_cases hg : trimSpace l = [] ∨ (trimSpace l).head? = some '#'
    · simp only [firstSigHasEq, if_pos hg] at h2
      simp only [unmarshalLoop, if_pos hg]
      exact ih (c + 1) t h1 h2
    · simp only [firstSigHasEq, if_neg hg] at h2
      obtain ⟨kv, hkv⟩ := Option.isSome_iff_exists.mp h2
      simp only [unmarshalLoop, if_neg hg, hkv]
      cases t with
      | ptr fields => simp [targetInvalid] at h1
      | nilT => rfl
      | nonPtr k => rfl
      | nilPtr => rfl

/-- C2 (amended): if the decode target is not a non-nil pointer to a record
and the input's first significant (non-blank, non-comment) line contains an
`=`, then Unmarshal fails with UnsupportedType carrying the target's actual
kind.  (As stated over every input byte sequence the claim is false: with no
significant key/value line the target is never inspected.) -/
theorem c2_invalid_target_amended (data : Str) (t : Target)
    (h1 : targetInvalid t = true) (h2 : firstSigHasEq (goLines data) = true) :
    Unmarshal data t = (t, some (EnvError.unsupportedType (targetKind t))) :=
  unmarshalLoop_invalid (goLines data) 0 t h1 h2

/-- Counterexample to C2 as stated: decoding the empty byte sequence with a
nil target returns no error at all, although the claim promises an
UnsupportedType failure for every input byte sequence. -/
theorem c2_counterexample :
    Unmarshal [] Target.nilT = (Target.nilT, none) := by decide

/-- Witness for C2 (amended): a nil target together with an input whose
first line is a key/value line fails with UnsupportedType invalid. -/
theorem c2_invalid_target_amended_witness :
    Unmarshal (("A=1").toList) Target.nilT
      = (Target.nilT, some (EnvError.unsupportedType Kind.invalid)) :=
  c2_invalid_target_amended (("A=1").toList) Target.nilT (by decide) (by decide)

theorem unmarshalLoop_insig (ls : List Str) :
    ∀ (c : Nat) (t : Target), (∀ l ∈ ls, isInsig l = true) →
      unmarshalLoop ls c t = (t, none) := by
  induction ls with
  | nil => intro c t _; rfl
  | cons l rest ih =>
    intro c t h
    have hl : isInsig l = true := h l (List.mem_cons_self _ _)
    have hg : trimSpace l = [] ∨ (trimSpace l).head? = some '#' := of_decide_eq_true hl
    simp only [unmarshalLoop, if_pos hg]
    exact ih (c + 1) t (fun x hx => h x (List.mem_cons_of_mem _ hx))

theorem unmarshalLoop_insig_bad (ls : List Str) :
    ∀ (i c : Nat) (t : Target) (hi : i < ls.length),
      (∀ l ∈ ls.take i, isInsig l = true) →
      badNoEq (ls.get ⟨i, hi⟩) = true →
      unmarshalLoop ls c t = (t, some (EnvError.lineParsing (c + i + 1))) := by
  induction ls with
  | nil => intro i c t hi; exact absurd hi (Nat.not_lt_zero i)
  | cons l rest ih =>
    intro i c t hi hins hbad
    cases i with
    | zero =>
      obtain ⟨hg, hnone⟩ := badNoEq_spec l hbad
      simp only [unmarshalLoop, if_neg hg, hnone]
    | succ i2 =>
      have hl : isInsig l = true := by
        apply hins l
        rw [List.take_succ_cons]
        exact List.mem_cons_self _ _
      have hg : trimSpace l = [] ∨ (trimSpace l).head? = some '#' := of_decide_eq_true hl
      simp only [unmarshalLoop, if_pos hg]
      have hins2 : ∀ x ∈ rest.take i2, isInsig x = true := by
        intro x hx
        apply hins x
        rw [List.take_succ_cons]
        exact List.mem_cons_of_mem _ hx
      have hi2 : i2 < rest.length := Nat.lt_of_succ_lt_succ hi
      have harith : c + 1 + i2 + 1 = c + (i2 + 1) + 1 := by omega
      rw [ih i2 (c + 1) t hi2 hins2 hbad, harith]

/-- C9: Unmarshal validates its target only upon encountering a key/value
line: decoding an input of only blank and comment lines (or no lines at
all) returns no error and performs no assignment for every target, and when
the first significant line lacks `=`, the LineParsing error is returned
rather than UnsupportedType even when the target is invalid. -/
theorem c9_lazy_target_validation :
    (∀ (data : Str) (t : Target), (∀ l ∈ goLines data, isInsig l = true) →
      Unmarshal data t = (t, none)) ∧
    (∀ (data : Str) (t : Target) (i : Nat) (hi : i < (goLines data).length),
      (∀ l ∈ (goLines data).take i, isInsig l = true) →
      badNoEq ((goLines data).get ⟨i, hi⟩) = true →
      Unmarshal data t = (t, some (EnvError.lineParsing (i + 1)))) := by
  constructor
  · intro data t h
    exact unmarshalLoop_insig (goLines data) 0 t h
  · intro data t i hi h1 h2
    have h3 := unmarshalLoop_insig_bad (goLines data) i 0 t hi h1 h2
    simpa using h3

/-- Witness for C9: a comment/blank document decodes into a nil target with
no error, and a doc whose first line lacks `=` reports a line-parsing error
on a non-pointer target. -/
theorem c9_lazy_target_validation_witness :
    Unmarshal (("# x\n \n").toList) Target.nilT = (Target.nilT, none) ∧
    Unmarshal (("FOO").toList) (Target.nonPtr Kind.stringK)
      = (Target.nonPtr Kind.stringK, some (EnvError.lineParsing 1)) :=
  ⟨c9_lazy_target_validation.1 (("# x\n \n").toList) Target.nilT (by decide),
   c9_lazy_target_validation.2 (("FOO").toList) (Target.nonPtr Kind.stringK) 0
     (by decide) (by decide) (by decide)⟩

theorem applyLine_decodable (k v : Str) (L : List Field) :
    (∀ f ∈ L, fieldDecodable f = true) →
    (applyLine L k v).2 = none ∧ ∀ f ∈ (applyLine L k v).1, fieldDecodable f = true := by
  induction L with
  | nil =>
    intro _
    exact ⟨rfl, by intro f hf; cases hf⟩
  | cons f rest ih =>
    intro h
    have hf := h f (List.mem_cons_self _ _)
    have hrest := fun x hx => h x (List.mem_cons_of_mem _ hx)
    obtain ⟨h2, h3⟩ := ih hrest
    by_cases hs : (parseFieldOpts f.name f.tag).2.Skip = true
    · simp only [applyLine, if_pos hs]
      refine ⟨h2, ?_⟩
      intro x hx
      rcases List.mem_cons.mp hx with hx1 | hx1
      · rw [hx1]; exact hf
      · exact h3 x hx1
    · by_cases hm : trimSpace k = (parseFieldOpts f.name f.tag).1
      · cases hval : f.val with
        | str s =>
          simp only [applyLine, if_neg hs, if_pos hm, hval]
          refine ⟨h2, ?_⟩
          intro x hx
          rcases List.mem_cons.mp hx with hx1 | hx1
          · rw [hx1]
            split
            · exact hf
            · simp [fieldDecodable]
          · exact h3 x hx1
        | other kk =>
          exfalso
          simp only [fieldDecodable, hval, Bool.or_eq_true] at hf
          rcases hf with hf1 | hf1
          · exact hs hf1
          · cases hf1
      · simp only [applyLine, if_neg hs, if_neg hm]
        refine ⟨h2, ?_⟩
        intro x hx
        rcases List.mem_cons.mp hx with hx1 | hx1
        · rw [hx1]; exact hf
        · exact h3 x hx1

theorem unmarshalLoop_ok_bad (ls : List Str) :
    ∀ (i c : Nat) (fields : List Field) (hi : i < ls.length),
      (∀ f ∈ fields, fieldDecodable f = true) →
      (∀ l ∈ ls.take i, okLine l = true) →
      badNoEq (ls.get ⟨i, hi⟩) = true →
      (unmarshalLoop ls c (Target.ptr fields)).2
        = some (EnvError.lineParsing (c + i + 1)) := by
  induction ls with
  | nil => intro i c fields hi; exact absurd hi (Nat.not_lt_zero i)
  | cons l rest ih =>
    intro i c fields hi hdec hok hbad
    cases i with
    | zero =>
      obtain ⟨hg, hnone⟩ := badNoEq_spec l hbad
      simp only [unmarshalLoop, if_neg hg, hnone]
    | succ i2 =>
      have hl : okLine l = true := by
        apply hok l
        rw [List.take_succ_cons]
        exact List.mem_cons_self _ _
      have hok2 : ∀ x ∈ rest.take i2, okLine x = true := by
        intro x hx
        apply hok x
        rw [List.take_succ_cons]
        exact List.mem_cons_of_mem _ hx
      have hi2 : i2 < rest.length := Nat.lt_of_succ_lt_succ hi
      have harith : c + 1 + i2 + 1 = c + (i2 + 1) + 1 := by omega
      by_cases hg : trimSpace l = [] ∨ (trimSpace l).head? = some '#'
      · simp only [unmarshalLoop, if_pos hg]
        rw [ih i2 (c + 1) fields hi2 hdec hok2 hbad, harith]
      · have hins : isInsig l = false := decide_eq_false hg
        have hsome : (splitFirstEq (trimSpace l)).isSome = true := by
          rcases Bool.or_eq_true _ _ ▸ hl with hx | hx
          · rw [hins] at hx; cases hx
          · exact hx
        obtain ⟨kv, hkv⟩ := Option.isSome_iff_exists.mp hsome
        obtain ⟨hr2, hr1⟩ := applyLine_decodable kv.1 kv.2 fields hdec
        simp only [unmarshalLoop, if_neg hg, hkv, hr2]
        rw [ih i2 (c + 1) _ hi2 hr1 hok2 hbad, harith]

theorem unmarshalLoop_error_append (ls1 : List Str) :
    ∀ (ls2 : List Str) (c : Nat) (t : Target) (e : EnvError),
      (unmarshalLoop ls1 c t).2 = some e →
      unmarshalLoop (ls1 ++ ls2) c t = unmarshalLoop ls1 c t := by
  induction ls1 with
  | nil => intro ls2 c t e h; cases h
  | cons l rest ih =>
    intro ls2 c t e h
    by_cases hg : trimSpace l = [] ∨ (trimSpace l).head? = some '#'
    · simp only [unmarshalLoop, if_pos hg] at h
      simp only [List.cons_append, unmarshalLoop, if_pos hg]
      exact ih ls2 (c + 1) t e h
    · cases hc : splitFirstEq (trimSpace l) with
      | none => simp only [List.cons_append, unmarshalLoop, if_neg hg, hc]
      | some kv =>
        cases t with
        | ptr fields =>
          simp only [unmarshalLoop, if_neg hg, hc] at h
          simp only [List.cons_append, unmarshalLoop, if_neg hg, hc]
          cases hr : (applyLine fields kv.1 kv.2).2 with
          | some e2 => simp only [hr]
          | none =>
            rw [hr] at h
            simp only [hr]
            exact ih ls2 (c + 1) _ e h
        | nilT => simp only [List.cons_append, unmarshalLoop, if_neg hg, hc]
        | nonPtr k => simp only [List.cons_append, unmarshalLoop, if_neg hg, hc]
        | nilPtr => simp only [List.cons_append, unmarshalLoop, if_neg hg, hc]

/-- C4 (amended): when every field of the target record is skipped or of
string kind and every line before position i is blank, a comment, or a
key/value line, and the line at position i is significant but lacks `=`,
decoding fails with LineParsing carrying that line's 1-based number (i+1)
and processes no further lines.  (As stated, "regardless of content on lines
1 and 3" is false: an earlier line lacking `=` makes the error report the
earlier line's number instead.) -/
theorem c4_line_parsing_amended (data : Str) (fields : List Field) (i : Nat)
    (hdec : ∀ f ∈ fields, fieldDecodable f = true)
    (hi : i < (goLines data).length)
    (hok : ∀ l ∈ (goLines data).take i, okLine l = true)
    (hbad : badNoEq ((goLines data).get ⟨i, hi⟩) = true) :
    (Unmarshal data (Target.ptr fields)).2 = some (EnvError.lineParsing (i + 1)) ∧
    Unmarshal data (Target.ptr fields)
      = unmarshalLoop ((goLines data).take (i + 1)) 0 (Target.ptr fields) := by
  have h1 := unmarshalLoop_ok_bad (goLines data) i 0 fields hi hdec hok hbad
  constructor
  · simpa using h1
  · have hlen : i < ((goLines data).take (i + 1)).length := by
      rw [List.length_take]; omega
    have htak : ((goLines data).take (i + 1)).get ⟨i, hlen⟩
        = (goLines data).get ⟨i, hi⟩ := by
      simp [List.get_eq_getElem, List.getElem_take]
    have hok2 : ∀ l ∈ ((goLines data).take (i + 1)).take i, okLine l = true := by
      rw [List.take_take]
      have hmin : min i (i + 1) = i := by omega
      rw [hmin]
      exact hok
    have herr := unmarshalLoop_ok_bad ((goLines data).take (i + 1)) i 0 fields hlen
      hdec hok2 (htak ▸ hbad)
    have happ := unmarshalLoop_error_append ((goLines data).take (i + 1))
      ((goLines data).drop (i + 1)) 0 (Target.ptr fields) _ herr
    rw [List.take_append_drop] at happ
    unfold Unmarshal
    exact happ

/-- Counterexample to C4 as stated: in the 3-line document `X`, `Y`, `A=1`,
line 2 lacks `=`, yet decoding reports line number 1 (the first line also
lacks `=`), not line number 2 as the claim promises regardless of the
content of lines 1 and 3. -/
theorem c4_counterexample :
    (Unmarshal (("X\nY\nA=1").toList)
      (Target.ptr [⟨("Test").toList, [], FieldVal.str []⟩])).2
        = some (EnvError.lineParsing 1) ∧
    EnvError.lineParsing 1 ≠ EnvError.lineParsing 2 := by decide

/-- Witness for C4 (amended): the 3-line document `A=1`, `B`, `C=2` with a
string-field target fails reporting line number 2. -/
theorem c4_line_parsing_amended_witness :
    (Unmarshal (("A=1\nB\nC=2").toList)
      (Target.ptr [⟨("Test").toList, ("A").toList, FieldVal.str []⟩])).2
        = some (EnvError.lineParsing 2) :=
  (c4_line_parsing_amended (("A=1\nB\nC=2").toList)
    [⟨("Test").toList, ("A").toList, FieldVal.str []⟩] 1
    (by decide) (by decide) (by decide) (by decide)).1

theorem applyLine_length (k v : Str) : ∀ L : List Field,
    (applyLine L k v).1.length = L.length := by
  intro L
  induction L with
  | nil => rfl
  | cons f rest ih =>
    by_cases hs : (parseFieldOpts f.name f.tag).2.Skip = true
    · simp only [applyLine, if_pos hs, List.length_cons, ih]
    · by_cases hm : trimSpace k = (parseFieldOpts f.name f.tag).1
      · cases hval : f.val with
        | str s =>
          simp only [applyLine, if_neg hs, if_pos hm, hval, List.length_cons, ih]
        | other kk =>
          simp only [applyLine, if_neg hs, if_pos hm, hval, List.length_cons]
      · simp only [applyLine, if_neg hs, if_neg hm, List.length_cons, ih]

theorem applyLine_insert_skip (fsk : Field)
    (hf : (parseFieldOpts fsk.name fsk.tag).2.Skip = true) (k v : Str) :
    ∀ (A B : List Field),
      applyLine (A ++ fsk :: B) k v =
        ((applyLine (A ++ B) k v).1.take A.length
          ++ fsk :: (applyLine (A ++ B) k v).1.drop A.length,
         (applyLine (A ++ B) k v).2) := by
  intro A
  induction A with
  | nil =>
    intro B
    simp only [List.nil_append, List.length_nil, List.take_zero, List.drop_zero]
    simp only [applyLine, if_pos hf]
  | cons a A2 ih =>
    intro B
    simp only [List.cons_append, List.length_cons]
    by_cases hs : (parseFieldOpts a.name a.tag).2.Skip = true
    · simp only [applyLine, if_pos hs, ih B, List.take_succ_cons, List.drop_succ_cons,
        List.cons_append]
    · by_cases hm : trimSpace k = (parseFieldOpts a.name a.tag).1
      · cases hval : a.val with
        | str s =>
          simp only [applyLine, if_neg hs, if_pos hm, hval, ih B,
            List.take_succ_cons, List.drop_succ_cons, List.cons_append]
        | other kk =>
          simp only [applyLine, if_neg hs, if_pos hm, hval,
            List.take_succ_cons, List.drop_succ_cons, List.take_left, List.drop_left,
            List.cons_append]
      · simp only [applyLine, if_neg hs, if_neg hm, ih B,
          List.take_succ_cons, List.drop_succ_cons, List.cons_append]

theorem unmarshalLoop_insert_skip (fsk : Field)
    (hf : (parseFieldOpts fsk.name fsk.tag).2.Skip = true) (ls : List Str) :
    ∀ (c : Nat) (A B : List Field),
      unmarshalLoop ls c (Target.ptr (A ++ fsk :: B)) =
        (insertFieldAt A.length fsk (unmarshalLoop ls c (Target.ptr (A ++ B))).1,
         (unmarshalLoop ls c (Target.ptr (A ++ B))).2) := by
  induction ls with
  | nil =>
    intro c A B
    simp only [unmarshalLoop, insertFieldAt]
    rw [List.take_left, List.drop_left]
  | cons l rest ih =>
    intro c A B
    by_cases hg : trimSpace l = [] ∨ (trimSpace l).head? = some '#'
    · simp only [unmarshalLoop, if_pos hg]
      exact ih (c + 1) A B
    · cases hc : splitFirstEq (trimSpace l) with
      | none =>
        simp only [unmarshalLoop, if_neg hg, hc, insertFieldAt]
        rw [List.take_left, List.drop_left]
      | some kv =>
        have hA := applyLine_insert_skip fsk hf kv.1 kv.2 A B
        simp only [unmarshalLoop, if_neg hg, hc, hA]
        cases hr : (applyLine (A ++ B) kv.1 kv.2).2 with
        | some e => simp only [hr, insertFieldAt]
        | none =>
          simp only [hr]
          have hlen : ((applyLine (A ++ B) kv.1 kv.2).1.take A.length).length
              = A.length := by
            rw [List.length_take, applyLine_length, List.length_append]
            omega
          have hrec := ih (c + 1) ((applyLine (A ++ B) kv.1 kv.2).1.take A.length)
            ((applyLine (A ++ B) kv.1 kv.2).1.drop A.length)
          rw [List.take_append_drop] at hrec
          rw [hrec, hlen]

theorem marshalFields_skip (fsk : Field)
    (hf : (parseFieldOpts fsk.name fsk.tag).2.Skip = true) :
    ∀ (A B : List Field) (buf : Str),
      marshalFields (A ++ fsk :: B) buf = marshalFields (A ++ B) buf := by
  intro A
  induction A with
  | nil =>
    intro B buf
    simp only [List.nil_append, marshalFields, if_pos hf]
  | cons a A2 ih =>
    intro B buf
    by_cases hs : (parseFieldOpts a.name a.tag).2.Skip = true
    · simp only [List.cons_append, marshalFields, if_pos hs, List.append_eq]
      exact ih B _
    · cases hval : a.val with
      | str s =>
        by_cases ho : (parseFieldOpts a.name a.tag).2.OmitEmpty = true ∧ s = []
        · simp only [List.cons_append, marshalFields, if_neg hs, hval, if_pos ho,
            List.append_eq]
          exact ih B _
        · simp only [List.cons_append, marshalFields, if_neg hs, hval, if_neg ho,
            List.append_eq]
          exact ih B _
      | other kk =>
        simp only [List.cons_append, marshalFields, if_neg hs, hval]

/-- C6: a field whose configuration's first token is `-` produces no output
line under Marshal whatever its type or value (encoding with the field is
the same as encoding without it), and under Unmarshal no input line is ever
assigned to it (decoding is the same as decoding without it, with the field
re-inserted untouched) — in particular for lines whose key equals the
field's upper-cased declared name. -/
theorem c6_skip_fields (fsk : Field)
    (hf : (parseFieldOpts fsk.name fsk.tag).2.Skip = true) :
    (∀ A B : List Field,
      Marshal (Value.structV (A ++ fsk :: B)) = Marshal (Value.structV (A ++ B))) ∧
    (∀ (data : Str) (A B : List Field),
      Unmarshal data (Target.ptr (A ++ fsk :: B)) =
        (insertFieldAt A.length fsk (Unmarshal data (Target.ptr (A ++ B))).1,
         (Unmarshal data (Target.ptr (A ++ B))).2)) := by
  constructor
  · intro A B
    simp only [Marshal]
    exact marshalFields_skip fsk hf A B []
  · intro data A B
    exact unmarshalLoop_insert_skip fsk hf (goLines data) 0 A B

/-- Witness for C6: a skipped int field (tag `-`, name `Test`) vanishes from
encoding, and an input line `TEST=1` matching its upper-cased name is not
assigned to it during decoding. -/
theorem c6_skip_fields_witness :
    Marshal (Value.structV
      [⟨("Test").toList, ("-").toList, FieldVal.other Kind.intK⟩,
       ⟨("Bla").toList, [], FieldVal.str (("x").toList)⟩]) =
      Marshal (Value.structV [⟨("Bla").toList, [], FieldVal.str (("x").toList)⟩]) ∧
    Unmarshal (("TEST=1\nBLA=y").toList)
      (Target.ptr [⟨("Test").toList, ("-").toList, FieldVal.other Kind.intK⟩,
        ⟨("Bla").toList, [], FieldVal.str (("y0").toList)⟩]) =
      (insertFieldAt 0 (⟨("Test").toList, ("-").toList, FieldVal.other Kind.intK⟩)
        (Unmarshal (("TEST=1\nBLA=y").toList)
          (Target.ptr [⟨("Bla").toList, [], FieldVal.str (("y0").toList)⟩])).1,
       (Unmarshal (("TEST=1\nBLA=y").toList)
         (Target.ptr [⟨("Bla").toList, [], FieldVal.str (("y0").toList)⟩])).2) :=
  ⟨(c6_skip_fields (⟨("Test").toList, ("-").toList, FieldVal.other Kind.intK⟩)
      (by decide)).1 [] [⟨("Bla").toList, [], FieldVal.str (("x").toList)⟩],
   (c6_skip_fields (⟨("Test").toList, ("-").toList, FieldVal.other Kind.intK⟩)
      (by decide)).2 (("TEST=1\nBLA=y").toList) []
      [⟨("Bla").toList, [], FieldVal.str (("y0").toList)⟩]⟩

theorem trimSpace_dropCR (l : Str) : trimSpace (dropCR l) = trimSpace l := by
  unfold dropCR
  cases hrev : l.reverse with
  | nil => rfl
  | cons c rest =>
    show trimSpace (if c = '\r' then rest.reverse else l) = trimSpace l
    by_cases hc : c = '\r'
    · rw [if_pos hc]
      unfold trimSpace
      rw [List.reverse_reverse, hrev, hc]
      have hws : goIsSpace '\r' = true := by decide
      rw [List.dropWhile_cons, if_pos hws]
    · rw [if_neg hc]

theorem unmarshalLoop_map_dropCR (ls : List Str) :
    ∀ (c : Nat) (t : Target),
      unmarshalLoop (ls.map dropCR) c t = unmarshalLoop ls c t := by
  induction ls with
  | nil => intro c t; rfl
  | cons l rest ih =>
    intro c t
    simp only [List.map_cons]
    by_cases hg : trimSpace l = [] ∨ (trimSpace l).head? = some '#'
    · have hg2 : trimSpace (dropCR l) = [] ∨ (trimSpace (dropCR l)).head? = some '#' := by
        rw [trimSpace_dropCR]; exact hg
      simp only [unmarshalLoop, if_pos hg, if_pos hg2]
      exact ih (c + 1) t
    · have hg2 : ¬(trimSpace (dropCR l) = [] ∨ (trimSpace (dropCR l)).head? = some '#') := by
        rw [trimSpace_dropCR]; exact hg
      cases hc : splitFirstEq (trimSpace l) with
      | none => simp only [unmarshalLoop, if_neg hg, if_neg hg2, trimSpace_dropCR, hc]
      | some kv =>
        cases t with
        | ptr fields =>
          simp only [unmarshalLoop, if_neg hg, if_neg hg2, trimSpace_dropCR, hc]
          cases hr : (applyLine fields kv.1 kv.2).2 with
          | some e => simp only [hr]
          | none => simp only [hr]; exact ih (c + 1) _
        | nilT => simp only [unmarshalLoop, if_neg hg, if_neg hg2, trimSpace_dropCR, hc]
        | nonPtr k => simp only [unmarshalLoop, if_neg hg, if_neg hg2, trimSpace_dropCR, hc]
        | nilPtr => simp only [unmarshalLoop, if_neg hg, if_neg hg2, trimSpace_dropCR, hc]

theorem mem_dropCR (a : Char) (l : Str) (h : a ∈ dropCR l) : a ∈ l := by
  unfold dropCR at h
  cases hrev : l.reverse with
  | nil => rw [hrev] at h; exact h
  | cons c rest =>
    rw [hrev] at h
    have h0 : a ∈ (if c = '\r' then rest.reverse else l) := h
    by_cases hc : c = '\r'
    · rw [if_pos hc] at h0
      have h2 : a ∈ rest := List.mem_reverse.mp h0
      have h3 : a ∈ l.reverse := by rw [hrev]; exact List.mem_cons_of_mem _ h2
      exact List.mem_reverse.mp h3
    · rw [if_neg hc] at h0; exact h0

theorem goLinesAux_no_newline (s : Str) :
    ∀ acc : Str, ('\n') ∉ acc → ∀ l ∈ goLinesAux s acc, ('\n') ∉ l := by
  induction s with
  | nil =>
    intro acc hacc l hl
    simp only [goLinesAux] at hl
    split at hl
    · cases hl
    · have hsing : l = dropCR acc.reverse := List.mem_singleton.mp hl
      intro hmem
      rw [hsing] at hmem
      exact hacc (List.mem_reverse.mp (mem_dropCR _ _ hmem))
  | cons c rest ih =>
    intro acc hacc l hl
    simp only [goLinesAux] at hl
    by_cases hc : c = '\n'
    · rw [if_pos hc] at hl
      rcases List.mem_cons.mp hl with h1 | h1
      · intro hmem
        rw [h1] at hmem
        exact hacc (List.mem_reverse.mp (mem_dropCR _ _ hmem))
      · exact ih [] (by intro hx; cases hx) l h1
    · rw [if_neg hc] at hl
      refine ih (c :: acc) ?_ l hl
      intro hmem
      rcases List.mem_cons.mp hmem with h1 | h1
      · exact hc h1.symm
      · exact hacc h1

theorem goLinesAux_append_newline (a : Str) :
    ∀ (acc b : Str), ('\n') ∉ a →
      goLinesAux (a ++ '\n' :: b) acc = dropCR (acc.reverse ++ a) :: goLinesAux b [] := by
  induction a with
  | nil =>
    intro acc b _
    simp [goLinesAux]
  | cons c a2 ih =>
    intro acc b h
    have hc : ¬ c = '\n' := fun hcc => h (hcc ▸ List.mem_cons_self _ _)
    simp only [List.cons_append, goLinesAux, if_neg hc, List.append_eq]
    rw [ih (c :: acc) b (fun hm => h (List.mem_cons_of_mem _ hm))]
    rw [List.reverse_cons, List.append_assoc, List.singleton_append]

theorem goLines_joinLines (ls : List Str) :
    (∀ l ∈ ls, ('\n') ∉ l) → goLines (joinLines ls) = ls.map dropCR := by
  induction ls with
  | nil => intro _; rfl
  | cons l rest ih =>
    intro h
    simp only [joinLines, List.map_cons]
    unfold goLines
    rw [goLinesAux_append_newline l [] (joinLines rest) (h l (List.mem_cons_self _ _))]
    simp only [List.reverse_nil, List.nil_append]
    show dropCR l :: goLines (joinLines rest) = dropCR l :: rest.map dropCR
    rw [ih (fun x hx => h x (List.mem_cons_of_mem _ hx))]

theorem unmarshalLoop_filter_insig (ls : List Str) :
    ∀ (c c2 : Nat) (t : Target), (∀ l ∈ ls, okLine l = true) →
      unmarshalLoop ls c t
        = unmarshalLoop (ls.filter (fun l => ! isInsig l)) c2 t := by
  induction ls with
  | nil => intro c c2 t _; rfl
  | cons l rest ih =>
    intro c c2 t h
    have hl := h l (List.mem_cons_self _ _)
    have hrest := fun x hx => h x (List.mem_cons_of_mem _ hx)
    by_cases hg : trimSpace l = [] ∨ (trimSpace l).head? = some '#'
    · have hins : isInsig l = true := decide_eq_true hg
      rw [List.filter_cons]
      simp only [hins, Bool.not_true, if_false, Bool.false_eq_true]
      simp only [unmarshalLoop, if_pos hg]
      exact ih (c + 1) c2 t hrest
    · have hins : isInsig l = false := decide_eq_false hg
      rw [List.filter_cons]
      simp only [hins, Bool.not_false, if_true]
      have hsome : (splitFirstEq (trimSpace l)).isSome = true := by
        rcases Bool.or_eq_true _ _ ▸ hl with hx | hx
        · rw [hins] at hx; cases hx
        · exact hx
      obtain ⟨kv, hkv⟩ := Option.isSome_iff_exists.mp hsome
      simp only [unmarshalLoop, if_neg hg, hkv]
      cases t with
      | ptr fields =>
        cases hr : (applyLine fields kv.1 kv.2).2 with
        | some e => simp only [hr]
        | none => simp only [hr]; exact ih (c + 1) (c2 + 1) _ hrest
      | nilT => rfl
      | nonPtr k => rfl
      | nilPtr => rfl

/-- C8: a document interleaving whitespace-only lines, `#`-comment lines
and key/value lines containing `=` decodes, for every target, to exactly the
same result as the same document with the blank and comment lines removed. -/
theorem c8_comment_blank_tolerance (data : Str) (t : Target)
    (h : ∀ l ∈ goLines data, okLine l = true) :
    Unmarshal data t
      = Unmarshal (joinLines ((goLines data).filter (fun l => ! isInsig l))) t := by
  have hnn : ∀ l ∈ (goLines data).filter (fun l => ! isInsig l), ('\n') ∉ l := by
    intro l hl
    exact goLinesAux_no_newline data [] (by intro hx; cases hx) l
      (List.mem_of_mem_filter hl)
  unfold Unmarshal
  rw [goLines_joinLines _ hnn, unmarshalLoop_map_dropCR]
  exact unmarshalLoop_filter_insig (goLines data) 0 0 t h

/-- Witness for C8: a document with a comment line and a blank line decodes
identically to the document with those lines removed. -/
theorem c8_comment_blank_tolerance_witness :
    Unmarshal (("#c\n\nA=1\n").toList)
        (Target.ptr [⟨("Test").toList, ("A").toList, FieldVal.str []⟩])
      = Unmarshal (joinLines ((goLines (("#c\n\nA=1\n").toList)).filter
          (fun l => ! isInsig l)))
        (Target.ptr [⟨("Test").toList, ("A").toList, FieldVal.str []⟩]) :=
  c8_comment_blank_tolerance (("#c\n\nA=1\n").toList)
    (Target.ptr [⟨("Test").toList, ("A").toList, FieldVal.str []⟩]) (by decide)

theorem dropWhile_eq_self_of_headNotSpace (l : Str) (h : headNotSpace l = true) :
    l.dropWhile goIsSpace = l := by
  cases l with
  | nil => rfl
  | cons c rest =>
    have hc : goIsSpace c = false := by simpa [headNotSpace] using h
    rw [List.dropWhile_cons, if_neg (by simp [hc])]

theorem trimSpace_eq_self (l : Str) (h1 : headNotSpace l = true)
    (h2 : headNotSpace l.reverse = true) : trimSpace l = l := by
  unfold trimSpace
  rw [dropWhile_eq_self_of_headNotSpace _ h2, List.reverse_reverse,
    dropWhile_eq_self_of_headNotSpace _ h1]

theorem headNotSpace_append (a b : Str) (h : headNotSpace a = true) :
    headNotSpace (a ++ b) = true := by
  cases a with
  | nil => cases h
  | cons c rest => simpa [headNotSpace] using h

theorem goodTok_spec (l : Str) (h : goodTok l = true) :
    headNotSpace l = true ∧ headNotSpace l.reverse = true := by
  simpa [goodTok, Bool.and_eq_true] using h

theorem ne_nil_of_headNotSpace (l : Str) (h : headNotSpace l = true) : l ≠ [] := by
  cases l with
  | nil => cases h
  | cons c rest => simp

theorem trimSpace_keyval (k v : Str) (hk : goodTok k = true) (hv : goodTok v = true) :
    trimSpace (k ++ '=' :: v) = k ++ '=' :: v := by
  obtain ⟨hk1, _⟩ := goodTok_spec k hk
  obtain ⟨_, hv2⟩ := goodTok_spec v hv
  apply trimSpace_eq_self
  · exact headNotSpace_append _ _ hk1
  · rw [← List.singleton_append, ← List.append_assoc, List.reverse_append]
    exact headNotSpace_append _ _ hv2

theorem dropCR_eq_self (l : Str) (h : headNotSpace l.reverse = true) : dropCR l = l := by
  unfold dropCR
  cases hrev : l.reverse with
  | nil => rfl
  | cons c rest =>
    show (if c = '\r' then rest.reverse else l) = l
    rw [hrev] at h
    have hc : goIsSpace c = false := by simpa [headNotSpace] using h
    have hcr : ¬ c = '\r' := by
      intro hcc
      rw [hcc] at hc
      have hR : goIsSpace '\r' = true := by decide
      rw [hR] at hc
      cases hc
    rw [if_neg hcr]

theorem noNL_spec (l : Str) (h : noNL l = true) : ('\n') ∉ l := by
  simpa [noNL] using h

theorem goodKey_spec (k : Str) (h : goodKey k = true) :
    goodTok k = true ∧ ('\n') ∉ k ∧ ('=') ∉ k ∧ k.head? ≠ some '#' := by
  simp only [goodKey, Bool.and_eq_true] at h
  obtain ⟨⟨⟨h1, h2⟩, h3⟩, h4⟩ := h
  exact ⟨h1, noNL_spec _ h2, by simpa using h3, by simpa using h4⟩

theorem plainField_spec (f : Field) (h : plainField f = true) :
    (parseFieldOpts f.name f.tag).2.Skip = false ∧
    (parseFieldOpts f.name f.tag).2.OmitEmpty = false ∧
    goodKey (parseFieldOpts f.name f.tag).1 = true ∧
    ∃ v, f.val = FieldVal.str v ∧ goodTok v = true ∧ ('\n') ∉ v := by
  simp only [plainField, Bool.and_eq_true] at h
  obtain ⟨⟨⟨h1, h2⟩, h3⟩, h4⟩ := h
  refine ⟨by simpa using h1, by simpa using h2, h3, ?_⟩
  cases hval : f.val with
  | str v =>
    rw [hval] at h4
    simp only [plainVal, Bool.and_eq_true] at h4
    exact ⟨v, rfl, h4.1, noNL_spec _ h4.2⟩
  | other k =>
    rw [hval] at h4
    cases h4

theorem marshalFields_plain (fs : List Field) :
    ∀ buf : Str, (∀ f ∈ fs, plainField f = true) →
      marshalFields fs buf = (buf ++ joinLines (fs.map rawLine), none) := by
  induction fs with
  | nil => intro buf _; simp [marshalFields, joinLines]
  | cons f rest ih =>
    intro buf h
    obtain ⟨hskip, homit, hkey, v, hval, hv, hvn⟩ :=
      plainField_spec f (h f (List.mem_cons_self _ _))
    have hskipf : ¬ (parseFieldOpts f.name f.tag).2.Skip = true := by
      rw [hskip]; simp
    have hcond : ¬((parseFieldOpts f.name f.tag).2.OmitEmpty = true ∧ v = []) := by
      rw [homit]
      rintro ⟨hc, _⟩
      cases hc
    simp only [marshalFields, if_neg hskipf, hval, if_neg hcond]
    rw [ih _ (fun x hx => h x (List.mem_cons_of_mem _ hx))]
    simp [List.map_cons, joinLines, rawLine, fieldKey, hval, fieldValStr,
      List.append_assoc, List.singleton_append, List.cons_append]

theorem rawLine_decomp (f : Field) (h : plainField f = true) :
    ∃ v, f.val = FieldVal.str v ∧ rawLine f = fieldKey f ++ '=' :: v ∧
      goodTok v = true ∧ ('\n') ∉ v := by
  obtain ⟨_, _, _, v, hval, hv, hvn⟩ := plainField_spec f h
  exact ⟨v, hval, by simp [rawLine, hval, fieldValStr], hv, hvn⟩

theorem rawLine_no_newline (f : Field) (h : plainField f = true) :
    ('\n') ∉ rawLine f := by
  obtain ⟨v, hval, hrl, hv, hvn⟩ := rawLine_decomp f h
  obtain ⟨_, _, hkey, _, _, _, _⟩ := plainField_spec f h
  obtain ⟨hktok, hknl, _, _⟩ := goodKey_spec _ hkey
  rw [hrl]
  intro hmem
  rcases List.mem_append.mp hmem with h1 | h1
  · exact hknl h1
  · rcases List.mem_cons.mp h1 with h2 | h2
    · exact absurd h2 (by decide)
    · exact hvn h2

theorem dropCR_rawLine (f : Field) (h : plainField f = true) :
    dropCR (rawLine f) = rawLine f := by
  obtain ⟨v, hval, hrl, hv, hvn⟩ := rawLine_decomp f h
  obtain ⟨_, hv2⟩ := goodTok_spec v hv
  apply dropCR_eq_self
  rw [hrl, ← List.singleton_append, ← List.append_assoc, List.reverse_append]
  exact headNotSpace_append _ _ hv2

theorem goLines_mapRawLine (fs : List Field) (h : ∀ f ∈ fs, plainField f = true) :
    goLines (joinLines (fs.map rawLine)) = fs.map rawLine := by
  rw [goLines_joinLines]
  · rw [List.map_map]
    apply List.map_congr_left
    intro f hf
    exact dropCR_rawLine f (h f hf)
  · intro l hl
    obtain ⟨f, hf, hfl⟩ := List.mem_map.mp hl
    rw [← hfl]
    exact rawLine_no_newline f (h f hf)

theorem applyLine_nomatch (k v : Str) :
    ∀ L : List Field,
      (∀ g ∈ L, (parseFieldOpts g.name g.tag).2.Skip = true ∨
        (parseFieldOpts g.name g.tag).1 ≠ trimSpace k) →
      applyLine L k v = (L, none) := by
  intro L
  induction L with
  | nil => intro _; rfl
  | cons g rest ih =>
    intro h
    have hg := h g (List.mem_cons_self _ _)
    have hrest := fun x hx => h x (List.mem_cons_of_mem _ hx)
    by_cases hs : (parseFieldOpts g.name g.tag).2.Skip = true
    · simp only [applyLine, if_pos hs, ih hrest]
    · have hne : ¬ trimSpace k = (parseFieldOpts g.name g.tag).1 := by
        rcases hg with h1 | h1
        · exact absurd h1 hs
        · exact fun he => h1 he.symm
      simp only [applyLine, if_neg hs, if_neg hne, ih hrest]

theorem applyLine_prefix_nomatch (k v : Str) (A : List Field) :
    ∀ B : List Field,
      (∀ g ∈ A, (parseFieldOpts g.name g.tag).2.Skip = true ∨
        (parseFieldOpts g.name g.tag).1 ≠ trimSpace k) →
      applyLine (A ++ B) k v = (A ++ (applyLine B k v).1, (applyLine B k v).2) := by
  induction A with
  | nil => intro B _; simp
  | cons g A2 ih =>
    intro B h
    have hg := h g (List.mem_cons_self _ _)
    have hrest := fun x hx => h x (List.mem_cons_of_mem _ hx)
    by_cases hs : (parseFieldOpts g.name g.tag).2.Skip = true
    · simp only [List.cons_append, applyLine, if_pos hs, List.append_eq, ih B hrest]
    · have hne : ¬ trimSpace k = (parseFieldOpts g.name g.tag).1 := by
        rcases hg with h1 | h1
        · exact absurd h1 hs
        · exact fun he => h1 he.symm
      simp only [List.cons_append, applyLine, if_neg hs, if_neg hne, List.append_eq,
        ih B hrest]

theorem applyLine_cons_match (f : Field) (rest : List Field) (k v s0 : Str)
    (hskip : (parseFieldOpts f.name f.tag).2.Skip = false)
    (hmatch : trimSpace k = (parseFieldOpts f.name f.tag).1)
    (hval : f.val = FieldVal.str s0)
    (homit : ¬((parseFieldOpts f.name f.tag).2.OmitEmpty = true ∧ v = [])) :
    applyLine (f :: rest) k v
      = ({ f with val := FieldVal.str (trimSpace v) } :: (applyLine rest k v).1,
         (applyLine rest k v).2) := by
  have hs : ¬ (parseFieldOpts f.name f.tag).2.Skip = true := by rw [hskip]; simp
  simp only [applyLine, if_neg hs, if_pos hmatch, hval, if_neg homit]

theorem unmarshalLoop_decode_plain (srcs : List Field) :
    ∀ (c : Nat) (A : List Field),
      (∀ f ∈ srcs, plainField f = true) →
      ((srcs.map fieldKey).Nodup) →
      (∀ a ∈ A, fieldKey a ∉ srcs.map fieldKey) →
      unmarshalLoop (srcs.map rawLine) c (Target.ptr (A ++ srcs.map freshField))
        = (Target.ptr (A ++ srcs), none) := by
  induction srcs with
  | nil =>
    intro c A _ _ _
    simp [unmarshalLoop]
  | cons s rest ih =>
    intro c A hp hnd hA
    have hps := hp s (List.mem_cons_self _ _)
    have hprest := fun x hx => hp x (List.mem_cons_of_mem _ hx)
    obtain ⟨hskip, homit, hkey, v, hval, hv, hvn⟩ := plainField_spec s hps
    obtain ⟨hktok, hknl, hkeq, hkhash⟩ := goodKey_spec _ hkey
    obtain ⟨hkh1, hkh2⟩ := goodTok_spec _ hktok
    obtain ⟨hvh1, hvh2⟩ := goodTok_spec _ hv
    simp only [List.map_cons] at hnd
    obtain ⟨hnotin, hndrest⟩ := List.nodup_cons.mp hnd
    have hrl : rawLine s = fieldKey s ++ '=' :: v := by
      simp [rawLine, hval, fieldValStr]
    have htrimline : trimSpace (rawLine s) = rawLine s := by
      rw [hrl]; exact trimSpace_keyval _ _ hktok hv
    have hknonnil : fieldKey s ≠ [] := ne_nil_of_headNotSpace _ hkh1
    have hne : ¬(trimSpace (rawLine s) = [] ∨ (trimSpace (rawLine s)).head? = some '#') := by
      rw [htrimline, hrl]
      rintro (h1 | h1)
      · rcases List.append_eq_nil.mp h1 with ⟨_, h3⟩
        cases h3
      · cases hk : fieldKey s with
        | nil => exact hknonnil hk
        | cons cK k2 =>
          rw [hk] at h1
          have hkhash2 : (cK :: k2).head? ≠ some '#' := by
            rw [← hk]; exact hkhash
          simp only [List.cons_append, List.head?_cons, Option.some.injEq] at h1
          exact hkhash2 (by simp [h1])
    have hsplit : splitFirstEq (trimSpace (rawLine s)) = some (fieldKey s, v) := by
      rw [htrimline, hrl]
      exact splitFirstEq_append _ v hkeq
    have htrimk : trimSpace (fieldKey s) = fieldKey s := trimSpace_eq_self _ hkh1 hkh2
    have htrimv : trimSpace v = v := trimSpace_eq_self _ hvh1 hvh2
    have hrest2 : applyLine (rest.map freshField) (fieldKey s) v
        = (rest.map freshField, none) := by
      apply applyLine_nomatch
      intro g hg
      obtain ⟨r, hr, hgr⟩ := List.mem_map.mp hg
      right
      rw [← hgr]
      show (parseFieldOpts r.name r.tag).1 ≠ trimSpace (fieldKey s)
      rw [htrimk]
      intro heq
      have h5 : fieldKey r = fieldKey s := heq
      exact hnotin (h5 ▸ List.mem_map_of_mem fieldKey hr)
    have hstep := applyLine_cons_match (freshField s) (rest.map freshField)
      (fieldKey s) v [] hskip htrimk rfl
      (by
        intro hcontra
        have h1 : (parseFieldOpts s.name s.tag).2.OmitEmpty = true := hcontra.1
        rw [homit] at h1
        cases h1)
    have hupd : ({ freshField s with val := FieldVal.str (trimSpace v) } : Field) = s := by
      rw [htrimv, ← hval]
      rfl
    have hInner : applyLine (freshField s :: rest.map freshField) (fieldKey s) v
        = (s :: rest.map freshField, none) := by
      rw [hstep, hrest2, hupd]
    have hAcond : ∀ g ∈ A, (parseFieldOpts g.name g.tag).2.Skip = true ∨
        (parseFieldOpts g.name g.tag).1 ≠ trimSpace (fieldKey s) := by
      intro g hg
      right
      rw [htrimk]
      intro heq
      have h6 : fieldKey g = fieldKey s := heq
      have h7 : fieldKey g ∈ (s :: rest).map fieldKey := by
        rw [List.map_cons, h6]
        exact List.mem_cons_self _ _
      exact hA g hg h7
    have hApply : applyLine (A ++ freshField s :: rest.map freshField) (fieldKey s) v
        = (A ++ s :: rest.map freshField, none) := by
      rw [applyLine_prefix_nomatch (fieldKey s) v A
        (freshField s :: rest.map freshField) hAcond, hInner]
    simp only [List.map_cons, unmarshalLoop, if_neg hne, hsplit, hApply]
    rw [List.append_cons A s (rest.map freshField), List.append_cons A s rest]
    apply ih (c + 1) (A ++ [s]) hprest hndrest
    intro a ha
    rcases List.mem_append.mp ha with h1 | h1
    · intro hmem
      exact hA a h1 (by rw [List.map_cons]; exact List.mem_cons_of_mem _ hmem)
    · have h2 : a = s := List.mem_singleton.mp h1
      rw [h2]
      exact hnotin

/-- C1 (amended): for every record whose fields are all plain string fields
— non-empty, whitespace-trim-invariant, newline-free values, no omitempty,
no skip — whose resolved keys are wire-safe (trim-invariant, non-empty, free
of `=` and newlines, not starting `#`) and pairwise distinct, decoding the
bytes produced by encoding the record into a fresh (zero-valued) record of
the same type yields a record equal to the original.  (As stated the claim
is false: decoding trims values, so a value with trailing whitespace does
not survive the round trip.) -/
theorem c1_roundtrip_amended (fields : List Field)
    (hp : ∀ f ∈ fields, plainField f = true)
    (hnd : (fields.map fieldKey).Nodup) :
    Unmarshal (Marshal (Value.structV fields)).1 (Target.ptr (fields.map freshField))
      = (Target.ptr fields, none) := by
  have hm : (Marshal (Value.structV fields)).1 = joinLines (fields.map rawLine) := by
    show (marshalFields fields []).1 = _
    rw [marshalFields_plain fields [] hp]
    rfl
  rw [hm]
  unfold Unmarshal
  rw [goLines_mapRawLine fields hp]
  have h0 := unmarshalLoop_decode_plain fields 0 [] hp hnd (by intro a ha; cases ha)
  simpa using h0

/-- Counterexample to C1 as stated: a plain, non-empty, non-omitempty,
default-key string field whose value carries trailing whitespace (`"a "`)
encodes to `TEST=a \n` but decodes back as `"a"`, because Unmarshal trims
the value while Marshal wrote it verbatim. -/
theorem c1_counterexample :
    Unmarshal (Marshal (Value.structV
        [⟨("Test").toList, [], FieldVal.str (("a ").toList)⟩])).1
      (Target.ptr [⟨("Test").toList, [], FieldVal.str []⟩])
      = (Target.ptr [⟨("Test").toList, [], FieldVal.str (("a").toList)⟩], none) ∧
    (⟨("Test").toList, [], FieldVal.str (("a").toList)⟩ : Field)
      ≠ ⟨("Test").toList, [], FieldVal.str (("a ").toList)⟩ := by decide

/-- Witness for C1 (amended): a two-field record with a default key and an
explicit key round-trips exactly. -/
theorem c1_roundtrip_amended_witness :
    Unmarshal (Marshal (Value.structV
        [⟨("Test").toList, [], FieldVal.str (("abc123").toList)⟩,
         ⟨("Foo").toList, ("FOO_VAR").toList, FieldVal.str (("x y").toList)⟩])).1
      (Target.ptr (List.map freshField
        [⟨("Test").toList, [], FieldVal.str (("abc123").toList)⟩,
         ⟨("Foo").toList, ("FOO_VAR").toList, FieldVal.str (("x y").toList)⟩]))
      = (Target.ptr
          [⟨("Test").toList, [], FieldVal.str (("abc123").toList)⟩,
           ⟨("Foo").toList, ("FOO_VAR").toList, FieldVal.str (("x y").toList)⟩],
         none) :=
  c1_roundtrip_amended
    [⟨("Test").toList, [], FieldVal.str (("abc123").toList)⟩,
     ⟨("Foo").toList, ("FOO_VAR").toList, FieldVal.str (("x y").toList)⟩]
    (by decide) (by decide)

end Envfile

